import Mathlib

/-!
Verification of the XGMII driver (`cocotb_bus/drivers/xgmii.py`) and monitor
(`cocotb_bus/monitors/xgmii.py`).

Bytes are modelled as `Nat` (with `< 256` bounds where the source works on
`u8` data), bus words as lists of `(byte, control)` lanes, and the packed
wire value as a `Nat` built with the same shifts and bitwise ORs as the
source.  Fallible operations (`_XGMIIBus.__setitem__` raising `IndexError`)
return `Option`.
-/

namespace Xgmii

/-- `_XGMII_IDLE` from the source. -/
def XGMII_IDLE : Nat := 0x07

/-- `_XGMII_START` from the source. -/
def XGMII_START : Nat := 0xFB

/-- `_XGMII_TERMINATE` from the source. -/
def XGMII_TERMINATE : Nat := 0xFD

/-- `_PREAMBLE_SFD = b"\x55\x55\x55\x55\x55\x55\xD5"` from the source. -/
def PREAMBLE_SFD : List Nat := [0x55, 0x55, 0x55, 0x55, 0x55, 0x55, 0xD5]

/-- Modelled from the spec: one bit-round of `zlib.crc32` (the source calls
the external `zlib` library; the spec fixes the "standard CRC-32/IEEE"
polynomial, which is the reflected polynomial `0xEDB88320`). -/
def crc32Step (c : Nat) : Nat :=
  if c % 2 = 1 then (c >>> 1) ^^^ 0xEDB88320 else c >>> 1

/-- Modelled from the spec: folding one byte into a running CRC-32/IEEE
state (eight `crc32Step` rounds after XOR-ing the byte in). -/
def crc32Byte (c b : Nat) : Nat := crc32Step^[8] (c ^^^ (b % 256))

/-- Modelled from the spec: `zlib.crc32` over a byte sequence
(initial value `0xFFFFFFFF`, final XOR `0xFFFFFFFF`). -/
def crc32 (data : List Nat) : Nat :=
  (data.foldl crc32Byte 0xFFFFFFFF) ^^^ 0xFFFFFFFF

/-- `struct.pack("<I", n)`: the four little-endian bytes of a 32-bit value. -/
def le32 (n : Nat) : List Nat :=
  [n % 256, n / 256 % 256, n / 65536 % 256, n / 16777216 % 256]

/-- `XGMII.layer1` from the driver: pad the packet with zero bytes to at
least 60 bytes, prepend the preamble/SFD, append the little-endian CRC-32
of the padded packet. -/
def layer1 (packet : List Nat) : List Nat :=
  let packet :=
    if packet.length < 60 then packet ++ List.replicate (60 - packet.length) 0
    else packet
  PREAMBLE_SFD ++ packet ++ le32 (crc32 packet &&& 0xFFFFFFFF)

/-- The spec's `PaddedPayload`: the raw frame right-padded with zero bytes
to a minimum length of 60 (no padding if already that long). -/
def paddedPayload (raw : List Nat) : List Nat :=
  raw ++ List.replicate (60 - raw.length) 0

theorem le32_mask (n : Nat) : le32 (n &&& 0xFFFFFFFF) = le32 n := by
  have h : (0xFFFFFFFF : Nat) = 2 ^ 32 - 1 := by norm_num
  rw [h, Nat.and_pow_two_sub_one_eq_mod]
  simp only [le32, List.cons.injEq, and_true]
  refine ⟨?_, ?_, ?_, ?_⟩ <;> omega

theorem paddedPayload_of_ge (raw : List Nat) (h : 60 ≤ raw.length) :
    paddedPayload raw = raw := by
  simp [paddedPayload, Nat.sub_eq_zero_of_le h]

theorem layer1_eq (raw : List Nat) :
    layer1 raw =
      PREAMBLE_SFD ++ paddedPayload raw ++ le32 (crc32 (paddedPayload raw)) := by
  by_cases h60 : raw.length < 60
  · simp only [layer1, h60, if_true, le32_mask]
    rfl
  · have hge : 60 ≤ raw.length := by omega
    simp only [layer1, h60, if_false, le32_mask, paddedPayload_of_ge raw hge]

/-- **C2.** `layer1` produces exactly the 7-byte preamble/SFD constant,
then the raw bytes right-padded with zeros to a minimum of 60 bytes (no
padding when the length is already ≥ 60), then the 4-byte little-endian
CRC-32 computed over the padded payload only. -/
theorem frame_structure (raw : List Nat) (h : 1 ≤ raw.length) :
    layer1 raw = PREAMBLE_SFD ++ paddedPayload raw ++ le32 (crc32 (paddedPayload raw)) ∧
    paddedPayload raw = raw ++ List.replicate (60 - raw.length) 0 ∧
    (60 ≤ raw.length → paddedPayload raw = raw) :=
  ⟨layer1_eq raw, rfl, fun h60 => paddedPayload_of_ge raw h60⟩

/-- Witness for C2 at the concrete 1-byte frame `[0xAA]`. -/
theorem frame_structure_witness :
    layer1 [0xAA] = PREAMBLE_SFD ++ paddedPayload [0xAA] ++
      le32 (crc32 (paddedPayload [0xAA])) ∧
    paddedPayload [0xAA] = [0xAA] ++ List.replicate (60 - ([0xAA] : List Nat).length) 0 ∧
    (60 ≤ ([0xAA] : List Nat).length → paddedPayload [0xAA] = [0xAA]) :=
  frame_structure [0xAA] (by decide)

/-- `_XGMIIBus.__setitem__` from the driver: OR the byte into bits
`index*9 ..` (interleaved) or `index*8 ..` (block) and the control bit into
bit `9*index+8` (interleaved) or `nbytes*8+index` (block) of the
accumulated integer.  An index past the bus width raises `IndexError`,
modelled as `none`. -/
def setItem (interleaved : Bool) (nbytes : Nat) (integer : Nat)
    (index : Nat) (byte : Nat) (ctrl : Bool) : Option Nat :=
  if nbytes ≤ index then none
  else some <|
    if interleaved then
      (integer ||| (byte <<< (index * 9))) ||| ((cond ctrl 1 0) <<< (9 * index + 8))
    else
      (integer ||| (byte <<< (index * 8))) ||| ((cond ctrl 1 0) <<< (nbytes * 8 + index))

/-- The driver's per-word usage of the builder: starting from accumulator
`integer`, set the given lanes at consecutive indices from `index`. -/
def packFrom (interleaved : Bool) (nbytes index integer : Nat) :
    List (Nat × Bool) → Option Nat
  | [] => some integer
  | (b, c) :: rest =>
    match setItem interleaved nbytes integer index b c with
    | none => none
    | some integer2 => packFrom interleaved nbytes (index + 1) integer2 rest

/-- Pack one whole bus word: all lanes set in order on a cleared integer
(the accumulator is `0` after every `value` read). -/
def packWord (interleaved : Bool) (nbytes : Nat) (lanes : List (Nat × Bool)) :
    Option Nat :=
  packFrom interleaved nbytes 0 0 lanes

/-- Byte stride of `XGMII._get_bytes` in the monitor: 9 if interleaved
else 8. -/
def byteShift (interleaved : Bool) : Nat := if interleaved then 9 else 8

/-- Control-bit position of lane `i` in `XGMII._get_bytes`: the loop starts
`ctrl_base` at 8 (interleaved) or `8*nbytes` (block) and increments it by 9
resp. 1. -/
def ctrlPos (interleaved : Bool) (nbytes i : Nat) : Nat :=
  if interleaved then 8 + 9 * i else 8 * nbytes + i

/-- `XGMII._get_bytes` from the monitor: extract the per-lane control bits
and bytes from a packed wire value; returns `(ctrls, bytes)`. -/
def getBytes (interleaved : Bool) (nbytes value : Nat) : List Bool × List Nat :=
  ((List.range nbytes).map fun i =>
      decide (value &&& (1 <<< ctrlPos interleaved nbytes i) ≠ 0),
   (List.range nbytes).map fun i =>
      (value >>> (i * byteShift interleaved)) &&& 0xFF)

/-- Closed form of an interleaved packed word: base-512 digits
`byte + 256*ctrl` in lane order. -/
def val9 : List (Nat × Bool) → Nat
  | [] => 0
  | (b, c) :: rest => b + (cond c 256 0) + 512 * val9 rest

/-- Closed form of the byte plane of a block-layout word: base-256 digits
in lane order. -/
def bytesVal : List Nat → Nat
  | [] => 0
  | b :: rest => b + 256 * bytesVal rest

/-- Closed form of the control plane of a block-layout word: base-2 digits
in lane order. -/
def ctrlVal : List Bool → Nat
  | [] => 0
  | c :: rest => (cond c 1 0) + 2 * ctrlVal rest

theorem or_shl_of_lt (x y k : Nat) (h : x < 2 ^ k) :
    x ||| y <<< k = x + y * 2 ^ k := by
  calc x ||| y <<< k = x ||| y * 2 ^ k := by rw [Nat.shiftLeft_eq]
    _ = y * 2 ^ k ||| x := Nat.or_comm ..
    _ = 2 ^ k * y ||| x := by rw [Nat.mul_comm]
    _ = 2 ^ k * y + x := (Nat.mul_add_lt_is_or h y).symm
    _ = x + y * 2 ^ k := by ring

theorem or_shl_mid (x y b k w m : Nat) (hx : x < 2 ^ k) (hb : b < 2 ^ w)
    (hkm : k + w ≤ m) :
    (x + y * 2 ^ m) ||| b <<< k = (x + b * 2 ^ k) + y * 2 ^ m := by
  have hxm : x < 2 ^ m :=
    lt_of_lt_of_le hx (Nat.pow_le_pow_right (by norm_num) (by omega))
  have h1 : x + y * 2 ^ m = 2 ^ m * y ||| x := by
    rw [← Nat.mul_add_lt_is_or hxm y]; ring
  have hbk : x + b * 2 ^ k < 2 ^ m := by
    calc x + b * 2 ^ k < 2 ^ k + b * 2 ^ k := by omega
      _ = (b + 1) * 2 ^ k := by ring
      _ ≤ 2 ^ w * 2 ^ k := Nat.mul_le_mul_right _ (by omega)
      _ = 2 ^ (k + w) := by rw [← pow_add]; ring_nf
      _ ≤ 2 ^ m := Nat.pow_le_pow_right (by norm_num) hkm
  calc (x + y * 2 ^ m) ||| b <<< k
      = (2 ^ m * y ||| x) ||| b <<< k := by rw [h1]
    _ = 2 ^ m * y ||| (x ||| b <<< k) := Nat.or_assoc ..
    _ = 2 ^ m * y ||| (x + b * 2 ^ k) := by rw [or_shl_of_lt x b k hx]
    _ = 2 ^ m * y + (x + b * 2 ^ k) := (Nat.mul_add_lt_is_or hbk y).symm
    _ = (x + b * 2 ^ k) + y * 2 ^ m := by ring

theorem packFrom_interleaved (n : Nat) (lanes : List (Nat × Bool)) :
    ∀ (i acc : Nat), i + lanes.length ≤ n →
      (∀ p ∈ lanes, (p : Nat × Bool).1 < 256) → acc < 2 ^ (i * 9) →
      packFrom true n i acc lanes = some (acc + 2 ^ (i * 9) * val9 lanes) := by
  induction lanes with
  | nil => intro i acc _ _ _; simp [packFrom, val9]
  | cons hd rest ih =>
    intro i acc hle hb hacc
    obtain ⟨b, c⟩ := hd
    have hi : ¬ n ≤ i := by simp at hle; omega
    have hb0 : b < 256 := hb (b, c) (by simp)
    have e1 : acc ||| b <<< (i * 9) = acc + b * 2 ^ (i * 9) :=
      or_shl_of_lt _ _ _ hacc
    have e256 : (2 : Nat) ^ (9 * i + 8) = 2 ^ (i * 9) * 256 := by
      rw [show 9 * i + 8 = i * 9 + 8 by ring, pow_add]; norm_num
    have hacc2 : acc + b * 2 ^ (i * 9) < 2 ^ (9 * i + 8) := by
      rw [e256]
      have := Nat.pow_pos (n := i * 9) (show 0 < 2 by norm_num)
      nlinarith
    have e2 : (acc + b * 2 ^ (i * 9)) ||| (cond c 1 0) <<< (9 * i + 8) =
        acc + b * 2 ^ (i * 9) + (cond c 1 0) * 2 ^ (9 * i + 8) :=
      or_shl_of_lt _ _ _ hacc2
    have e512 : (2 : Nat) ^ ((i + 1) * 9) = 2 ^ (i * 9) * 512 := by
      rw [show (i + 1) * 9 = i * 9 + 9 by ring, pow_add]; norm_num
    have hacc3 : acc + b * 2 ^ (i * 9) + (cond c 1 0) * 2 ^ (9 * i + 8) <
        2 ^ ((i + 1) * 9) := by
      rw [e512, e256]
      have := Nat.pow_pos (n := i * 9) (show 0 < 2 by norm_num)
      cases c <;> simp <;> nlinarith
    have hrec := ih (i + 1) _ (by simp at hle ⊢; omega)
      (fun p hp => hb p (by simp [hp])) hacc3
    simp only [packFrom, setItem, hi, if_false, if_true, cond_true, cond_false]
    rw [e1, e2, hrec]
    have : acc + b * 2 ^ (i * 9) + (cond c 1 0) * 2 ^ (9 * i + 8) +
        2 ^ ((i + 1) * 9) * val9 rest =
        acc + 2 ^ (i * 9) * val9 ((b, c) :: rest) := by
      rw [e512, e256]
      cases c <;> simp [val9] <;> ring
    rw [this]

theorem packFrom_block (n : Nat) (lanes : List (Nat × Bool)) :
    ∀ (i x y : Nat), i + lanes.length ≤ n →
      (∀ p ∈ lanes, (p : Nat × Bool).1 < 256) →
      x < 2 ^ (i * 8) → y < 2 ^ i →
      packFrom false n i (x + y * 2 ^ (n * 8)) lanes =
        some ((x + 2 ^ (i * 8) * bytesVal (lanes.map Prod.fst)) +
              (y + 2 ^ i * ctrlVal (lanes.map Prod.snd)) * 2 ^ (n * 8)) := by
  induction lanes with
  | nil => intro i x y _ _ _ _; simp [packFrom, bytesVal, ctrlVal]
  | cons hd rest ih =>
    intro i x y hle hb hx hy
    obtain ⟨b, c⟩ := hd
    have hi : ¬ n ≤ i := by simp at hle; omega
    have hb0 : b < 256 := hb (b, c) (by simp)
    have e1 : (x + y * 2 ^ (n * 8)) ||| b <<< (i * 8) =
        (x + b * 2 ^ (i * 8)) + y * 2 ^ (n * 8) :=
      or_shl_mid x y b (i * 8) 8 (n * 8) hx (by norm_num; omega)
        (by simp at hle; omega)
    have e256 : (2 : Nat) ^ ((i + 1) * 8) = 2 ^ (i * 8) * 256 := by
      rw [show (i + 1) * 8 = i * 8 + 8 by ring, pow_add]; norm_num
    have hx2 : x + b * 2 ^ (i * 8) < 2 ^ ((i + 1) * 8) := by
      rw [e256]
      have := Nat.pow_pos (n := i * 8) (show 0 < 2 by norm_num)
      nlinarith
    have hxm : x + b * 2 ^ (i * 8) < 2 ^ (n * 8) :=
      lt_of_lt_of_le hx2 (Nat.pow_le_pow_right (by norm_num)
        (by simp at hle; omega))
    have epos : (2 : Nat) ^ (n * 8 + i) = 2 ^ i * 2 ^ (n * 8) := by
      rw [pow_add]; ring
    have hsum : (x + b * 2 ^ (i * 8)) + y * 2 ^ (n * 8) < 2 ^ (n * 8 + i) := by
      rw [epos]
      have h2 := Nat.pow_pos (n := n * 8) (show 0 < 2 by norm_num)
      nlinarith
    have e2 : ((x + b * 2 ^ (i * 8)) + y * 2 ^ (n * 8)) |||
        (cond c 1 0) <<< (n * 8 + i) =
        (x + b * 2 ^ (i * 8)) + (y + (cond c 1 0) * 2 ^ i) * 2 ^ (n * 8) := by
      rw [or_shl_of_lt _ _ _ hsum, epos]; ring
    have hy2 : y + (cond c 1 0) * 2 ^ i < 2 ^ (i + 1) := by
      rw [pow_succ]
      cases c <;> simp <;> omega
    have hrec := ih (i + 1) (x + b * 2 ^ (i * 8)) (y + (cond c 1 0) * 2 ^ i)
      (by simp at hle ⊢; omega) (fun p hp => hb p (by simp [hp])) hx2 hy2
    simp only [packFrom, setItem, hi, if_false, if_true, Bool.false_eq_true,
      cond_true, cond_false]
    rw [e1, e2, hrec]
    have : (x + b * 2 ^ (i * 8)) +
          2 ^ ((i + 1) * 8) * bytesVal (rest.map Prod.fst) +
          ((y + (cond c 1 0) * 2 ^ i) +
            2 ^ (i + 1) * ctrlVal (rest.map Prod.snd)) * 2 ^ (n * 8) =
        (x + 2 ^ (i * 8) * bytesVal (((b, c) :: rest).map Prod.fst)) +
          (y + 2 ^ i * ctrlVal (((b, c) :: rest).map Prod.snd)) * 2 ^ (n * 8) := by
      rw [e256, pow_succ]
      cases c <;> simp [bytesVal, ctrlVal] <;> ring
    rw [this]

theorem packWord_interleaved (n : Nat) (lanes : List (Nat × Bool))
    (hlen : lanes.length ≤ n) (hb : ∀ p ∈ lanes, (p : Nat × Bool).1 < 256) :
    packWord true n lanes = some (val9 lanes) := by
  have h := packFrom_interleaved n lanes 0 0 (by simpa) hb (by simp)
  simpa [packWord] using h

theorem packWord_block (n : Nat) (lanes : List (Nat × Bool))
    (hlen : lanes.length ≤ n) (hb : ∀ p ∈ lanes, (p : Nat × Bool).1 < 256) :
    packWord false n lanes =
      some (bytesVal (lanes.map Prod.fst) +
            ctrlVal (lanes.map Prod.snd) * 2 ^ (n * 8)) := by
  have h := packFrom_block n lanes 0 0 0 (by simpa) hb (by simp) (by simp)
  simpa [packWord] using h

theorem and_one_shl_ne (x k : Nat) :
    decide (x &&& (1 <<< k) ≠ 0) = x.testBit k := by
  rw [Nat.one_shiftLeft, Nat.and_two_pow]
  cases h : x.testBit k <;> simp [(Nat.two_pow_pos k).ne']

theorem testBit_shift_div (x k s : Nat) :
    (x / 2 ^ s).testBit k = x.testBit (k + s) := by
  rw [Nat.testBit_to_div_mod, Nat.testBit_to_div_mod, Nat.div_div_eq_div_mul,
    ← pow_add, Nat.add_comm s k]

theorem val9_mod (b : Nat) (c : Bool) (rest : List (Nat × Bool))
    (hb : b < 256) : val9 ((b, c) :: rest) % 256 = b := by
  simp only [val9]; cases c <;> simp <;> omega

theorem val9_div (b : Nat) (c : Bool) (rest : List (Nat × Bool))
    (hb : b < 256) : val9 ((b, c) :: rest) / 512 = val9 rest := by
  simp only [val9]; cases c <;> simp <;> omega

theorem val9_bytes (lanes : List (Nat × Bool))
    (hb : ∀ p ∈ lanes, (p : Nat × Bool).1 < 256) :
    (List.range lanes.length).map (fun i => (val9 lanes >>> (i * 9)) &&& 0xFF) =
      lanes.map Prod.fst := by
  induction lanes with
  | nil => simp
  | cons hd rest ih =>
    obtain ⟨b, c⟩ := hd
    have hb0 : b < 256 := hb (b, c) (by simp)
    have h255 : (0xFF : Nat) = 2 ^ 8 - 1 := by norm_num
    simp only [List.length_cons, List.range_succ_eq_map, List.map_cons,
      List.map_map, List.map, Function.comp, List.cons.injEq]
    constructor
    · rw [Nat.zero_mul, Nat.shiftRight_zero, h255,
        Nat.and_pow_two_sub_one_eq_mod]
      exact val9_mod b c rest hb0
    · rw [List.map_congr_left (g := fun i => (val9 rest >>> (i * 9)) &&& 0xFF)
        (fun i _ => by
          show (val9 ((b, c) :: rest) >>> (Nat.succ i * 9)) &&& 0xFF =
            (val9 rest >>> (i * 9)) &&& 0xFF
          rw [show Nat.succ i * 9 = 9 + i * 9 by omega, Nat.shiftRight_add,
            show val9 ((b, c) :: rest) >>> 9 = val9 rest by
              rw [Nat.shiftRight_eq_div_pow]
              norm_num
              exact val9_div b c rest hb0])]
      exact ih (fun p hp => hb p (by simp [hp]))

theorem val9_bit8 (b : Nat) (c : Bool) (rest : List (Nat × Bool))
    (hb : b < 256) : (val9 ((b, c) :: rest)).testBit 8 = c := by
  rw [Nat.testBit_to_div_mod]
  simp only [val9]
  cases c <;> simp <;> omega

theorem val9_ctrls (lanes : List (Nat × Bool))
    (hb : ∀ p ∈ lanes, (p : Nat × Bool).1 < 256) :
    (List.range lanes.length).map (fun i => (val9 lanes).testBit (8 + 9 * i)) =
      lanes.map Prod.snd := by
  induction lanes with
  | nil => simp
  | cons hd rest ih =>
    obtain ⟨b, c⟩ := hd
    have hb0 : b < 256 := hb (b, c) (by simp)
    simp only [List.length_cons, List.range_succ_eq_map, List.map_cons,
      List.map_map, List.map, Function.comp, List.cons.injEq]
    constructor
    · simpa using val9_bit8 b c rest hb0
    · rw [List.map_congr_left (g := fun i => (val9 rest).testBit (8 + 9 * i))
        (fun i _ => by
          show (val9 ((b, c) :: rest)).testBit (8 + 9 * Nat.succ i) =
            (val9 rest).testBit (8 + 9 * i)
          rw [show 8 + 9 * Nat.succ i = (8 + 9 * i) + 9 by omega,
            ← testBit_shift_div (val9 ((b, c) :: rest)) (8 + 9 * i) 9,
            show val9 ((b, c) :: rest) / 2 ^ 9 = val9 rest by
              norm_num
              exact val9_div b c rest hb0])]
      exact ih (fun p hp => hb p (by simp [hp]))

theorem bytesVal_extract (bytes : List Nat) :
    ∀ C : Nat, (∀ b ∈ bytes, b < 256) →
      (List.range bytes.length).map
        (fun i => ((bytesVal bytes + C * 2 ^ (bytes.length * 8)) >>> (i * 8)) &&& 0xFF) =
      bytes := by
  induction bytes with
  | nil => simp
  | cons b rest ih =>
    intro C hb
    have hb0 : b < 256 := hb b (by simp)
    have h255 : (0xFF : Nat) = 2 ^ 8 - 1 := by norm_num
    have e256 : (2 : Nat) ^ ((rest.length + 1) * 8) = 256 * 2 ^ (rest.length * 8) := by
      rw [show (rest.length + 1) * 8 = 8 + rest.length * 8 by ring, pow_add]
      norm_num
    have hval : bytesVal (b :: rest) + C * 2 ^ ((rest.length + 1) * 8) =
        b + 256 * (bytesVal rest + C * 2 ^ (rest.length * 8)) := by
      rw [e256]; simp only [bytesVal]; ring
    simp only [List.length_cons, List.range_succ_eq_map, List.map_cons,
      List.map_map, List.map, Function.comp, List.cons.injEq]
    constructor
    · rw [hval, Nat.zero_mul, Nat.shiftRight_zero, h255,
        Nat.and_pow_two_sub_one_eq_mod]
      omega
    · rw [List.map_congr_left
        (g := fun i => ((bytesVal rest + C * 2 ^ (rest.length * 8)) >>> (i * 8)) &&& 0xFF)
        (fun i _ => by
          show ((bytesVal (b :: rest) + C * 2 ^ ((b :: rest).length * 8)) >>>
              (Nat.succ i * 8)) &&& 0xFF =
            ((bytesVal rest + C * 2 ^ (rest.length * 8)) >>> (i * 8)) &&& 0xFF
          rw [show (b :: rest).length = rest.length + 1 from rfl, hval,
            show Nat.succ i * 8 = 8 + i * 8 by omega, Nat.shiftRight_add,
            show (b + 256 * (bytesVal rest + C * 2 ^ (rest.length * 8))) >>> 8 =
                bytesVal rest + C * 2 ^ (rest.length * 8) by
              rw [Nat.shiftRight_eq_div_pow]
              norm_num
              omega])]
      exact ih C (fun p hp => hb p (by simp [hp]))

theorem ctrlVal_extract (ctrls : List Bool) :
    (List.range ctrls.length).map (fun i => (ctrlVal ctrls).testBit i) = ctrls := by
  induction ctrls with
  | nil => simp
  | cons c rest ih =>
    simp only [List.length_cons, List.range_succ_eq_map, List.map_cons,
      List.map_map, List.map, Function.comp, List.cons.injEq]
    constructor
    · rw [Nat.testBit_zero]
      simp only [ctrlVal]
      cases c <;> simp <;> omega
    · rw [List.map_congr_left (g := fun i => (ctrlVal rest).testBit i)
        (fun i _ => by
          show (ctrlVal (c :: rest)).testBit (Nat.succ i) = (ctrlVal rest).testBit i
          rw [Nat.testBit_succ,
            show ctrlVal (c :: rest) / 2 = ctrlVal rest by
              simp only [ctrlVal]
              cases c <;> simp <;> omega])]
      exact ih

theorem bytesVal_lt (l : List Nat) (hb : ∀ b ∈ l, b < 256) :
    bytesVal l < 2 ^ (l.length * 8) := by
  induction l with
  | nil => simp [bytesVal]
  | cons b rest ih =>
    have hb0 : b < 256 := hb b (by simp)
    have hr := ih (fun p hp => hb p (by simp [hp]))
    have e256 : (2 : Nat) ^ ((rest.length + 1) * 8) = 256 * 2 ^ (rest.length * 8) := by
      rw [show (rest.length + 1) * 8 = 8 + rest.length * 8 by ring, pow_add]
      norm_num
    simp only [bytesVal, List.length_cons, e256]
    omega

/-- Round trip through the packed wire integer: packing any full word of
in-range bytes and unpacking with the monitor's extractor recovers every
lane, for either layout and any bus width. -/
theorem getBytes_packWord (il : Bool) (n : Nat) (lanes : List (Nat × Bool))
    (hlen : lanes.length = n) (hb : ∀ p ∈ lanes, (p : Nat × Bool).1 < 256) :
    ∃ v, packWord il n lanes = some v ∧
      getBytes il n v = (lanes.map Prod.snd, lanes.map Prod.fst) := by
  subst hlen
  cases il with
  | true =>
    refine ⟨val9 lanes, packWord_interleaved _ lanes le_rfl hb, ?_⟩
    simp only [getBytes, byteShift, ctrlPos, if_true, Prod.mk.injEq]
    constructor
    · rw [List.map_congr_left
        (g := fun i => (val9 lanes).testBit (8 + 9 * i))
        (fun i _ => and_one_shl_ne _ _)]
      exact val9_ctrls lanes hb
    · exact val9_bytes lanes hb
  | false =>
    refine ⟨_, packWord_block _ lanes le_rfl hb, ?_⟩
    simp only [getBytes, byteShift, ctrlPos, if_false, Bool.false_eq_true,
      Prod.mk.injEq]
    have hBlt : bytesVal (lanes.map Prod.fst) < 2 ^ (lanes.length * 8) := by
      have := bytesVal_lt (lanes.map Prod.fst)
        (fun b hbm => by
          obtain ⟨p, hp, rfl⟩ := List.mem_map.mp hbm
          exact hb p hp)
      simpa using this
    constructor
    · rw [List.map_congr_left
        (g := fun i => (ctrlVal (lanes.map Prod.snd)).testBit i)
        (fun i _ => by
          rw [and_one_shl_ne]
          rw [show bytesVal (lanes.map Prod.fst) +
              ctrlVal (lanes.map Prod.snd) * 2 ^ (lanes.length * 8) =
              2 ^ (lanes.length * 8) * ctrlVal (lanes.map Prod.snd) +
              bytesVal (lanes.map Prod.fst) by ring]
          rw [Nat.testBit_mul_pow_two_add _ hBlt]
          simp only [show ¬ (8 * lanes.length + i < lanes.length * 8) by omega,
            if_false]
          congr 1
          omega)]
      have := ctrlVal_extract (lanes.map Prod.snd)
      simpa using this
    · have := bytesVal_extract (lanes.map Prod.fst)
        (ctrlVal (lanes.map Prod.snd))
        (fun b hbm => by
          obtain ⟨p, hp, rfl⟩ := List.mem_map.mp hbm
          exact hb p hp)
      simpa using this

/-- **C3.** For bus width 4 or 8 and either layout, unpacking the packed
wire integer built lane-by-lane by `_XGMIIBus.__setitem__` recovers exactly
the original `(byte, control)` pairs in lane order. -/
theorem pack_unpack_roundtrip (il : Bool) (n : Nat) (lanes : List (Nat × Bool))
    (hn : n = 4 ∨ n = 8) (hlen : lanes.length = n)
    (hb : ∀ p ∈ lanes, (p : Nat × Bool).1 < 256) :
    ∃ v, packWord il n lanes = some v ∧
      getBytes il n v = (lanes.map Prod.snd, lanes.map Prod.fst) :=
  getBytes_packWord il n lanes hlen hb

/-- Witness for C3: a concrete 4-lane word on the interleaved layout. -/
theorem pack_unpack_roundtrip_witness :
    ∃ v, packWord true 4 [(0xFB, true), (0x55, false), (0x07, true), (0xAB, false)] = some v ∧
      getBytes true 4 v =
        ([(0xFB, true), (0x55, false), (0x07, true), (0xAB, false)].map Prod.snd,
         [(0xFB, true), (0x55, false), (0x07, true), (0xAB, false)].map Prod.fst) :=
  pack_unpack_roundtrip true 4 _ (by decide) (by decide) (by decide)

/-- The `_XGMIIBus` object state: the accumulated integer. -/
structure BusState where
  integer : Nat

/-- Modelled from the spec: `create_binary` / `convert_binary_to_unsigned`
(`cocotb_bus.compat`, not under `src/`) exchange the packed integer with
the physical bus signal; the spec treats this as "a bus-value read/write
primitive exchanging the packed integer", so it is the identity on the
integer. -/
def create_binary (integer nbits : Nat) : Nat := integer

/-- The `_XGMIIBus.value` property: return the packed value for the
`nbytes * 9`-bit signal and clear the accumulated integer. -/
def busValue (nbytes : Nat) (s : BusState) : Nat × BusState :=
  (create_binary s.integer (nbytes * 9), ⟨0⟩)

/-- **C9.** Reading the packed wire value clears the word: a second read
with no intervening writes yields the all-zero packed value, and unpacking
that value shows no lane retains any byte or control bit. -/
theorem value_clears (il : Bool) (nbytes : Nat) (s : BusState) :
    (busValue nbytes (busValue nbytes s).2).1 = 0 ∧
    getBytes il nbytes 0 =
      (List.replicate nbytes false, List.replicate nbytes 0) := by
  constructor
  · rfl
  · simp [getBytes]

/-- The bit pattern `__setitem__` ORs into the word for one lane write. -/
def laneValue (il : Bool) (nbytes index byte : Nat) (ctrl : Bool) : Nat :=
  if il then (byte <<< (index * 9)) ||| ((cond ctrl 1 0) <<< (9 * index + 8))
  else (byte <<< (index * 8)) ||| ((cond ctrl 1 0) <<< (nbytes * 8 + index))

/-- **C10.** Two writes to the same lane with no intervening read OR their
encodings together: the result is the original integer ORed with both
writes' lane encodings, not the most recent write's encoding alone. -/
theorem setItem_accumulates (il : Bool) (n v i b1 b2 : Nat) (c1 c2 : Bool)
    (hi : i < n) :
    (setItem il n v i b1 c1).bind (fun v1 => setItem il n v1 i b2 c2) =
      some ((v ||| laneValue il n i b1 c1) ||| laneValue il n i b2 c2) := by
  have hni : ¬ n ≤ i := by omega
  cases il <;>
    simp only [setItem, laneValue, hni, if_false, if_true, Bool.false_eq_true,
      Option.bind_some, Option.some.injEq, Option.bind] <;>
    simp [Nat.or_assoc]

/-- Witness for C10 at a concrete double write to lane 1 of a 4-byte bus. -/
theorem setItem_accumulates_witness :
    (setItem true 4 5 1 255 false).bind (fun v1 => setItem true 4 v1 1 1 true) =
      some ((5 ||| laneValue true 4 1 255 false) ||| laneValue true 4 1 1 true) :=
  setItem_accumulates true 4 5 1 255 1 false true (by decide)

/-- First word of `XGMII._driver_send`: lane 0 carries the start symbol,
lanes `1..N-1` carry the first `N-1` wire-frame bytes as data. -/
def startWord (N : Nat) (wire : List Nat) : List (Nat × Bool) :=
  (XGMII_START, true) :: (wire.take (N - 1)).map (fun b => (b, false))

/-- The extra word emitted by `XGMII.terminate 0` when the data loop ends
exactly on a word boundary: terminate at lane 0, idle everywhere else. -/
def termWord (N : Nat) : List (Nat × Bool) :=
  (XGMII_TERMINATE, true) :: List.replicate (N - 1) (XGMII_IDLE, true)

/-- The all-idle word driven by `XGMII.idle`. -/
def idleWord (N : Nat) : List (Nat × Bool) :=
  List.replicate N (XGMII_IDLE, true)

/-- One iteration of the data loop in `XGMII._driver_send`: a full word of
`N` data bytes, or — when fewer than `N` bytes remain — the remaining data
bytes, the terminate symbol (`XGMII.terminate` at lane `len`), and idles. -/
def dataWord (N : Nat) (pkt : List Nat) : List (Nat × Bool) :=
  if pkt.length < N then
    pkt.map (fun b => (b, false)) ++
      (XGMII_TERMINATE, true) :: List.replicate (N - pkt.length - 1) (XGMII_IDLE, true)
  else (pkt.take N).map (fun b => (b, false))

/-- Fuel-indexed form of the `while pkt:` loop of `XGMII._driver_send`;
each iteration consumes at least one byte, so `pkt.length` fuel suffices. -/
def dataWordsAux (N : Nat) : Nat → List Nat → List (List (Nat × Bool))
  | 0, _ => []
  | _, [] => []
  | fuel + 1, b :: rest =>
    if N = 0 then []
    else dataWord N (b :: rest) :: dataWordsAux N fuel ((b :: rest).drop N)

/-- The words emitted by the `while pkt:` loop of `XGMII._driver_send`. -/
def dataWords (N : Nat) (pkt : List Nat) : List (List (Nat × Bool)) :=
  dataWordsAux N pkt.length pkt

theorem dataWordsAux_congr (N : Nat) :
    ∀ (f1 : Nat) (pkt : List Nat) (f2 : Nat), pkt.length ≤ f1 → pkt.length ≤ f2 →
      dataWordsAux N f1 pkt = dataWordsAux N f2 pkt := by
  intro f1
  induction f1 with
  | zero =>
    intro pkt f2 h1 _
    have : pkt = [] := List.eq_nil_of_length_eq_zero (by omega)
    subst this
    cases f2 <;> rfl
  | succ f1 ih =>
    intro pkt f2 h1 h2
    cases pkt with
    | nil => cases f2 <;> rfl
    | cons b rest =>
      cases f2 with
      | zero => simp at h2
      | succ f2 =>
        simp only [dataWordsAux]
        by_cases hN : N = 0
        · simp [hN]
        · simp only [hN, if_false]
          have h0 : 0 < N := by omega
          refine congrArg _ (ih _ _ ?_ ?_) <;>
            simp only [List.length_drop, List.length_cons] at h1 h2 ⊢ <;> omega

/-- The full word sequence of one `XGMII._driver_send` call: the start
word, the data-loop words, the extra terminate word when the loop finished
without placing the terminator (`done = False`, i.e. the byte count after
the start word is an exact multiple of `N`), and the final idle word. -/
def txWords (N : Nat) (wire : List Nat) : List (List (Nat × Bool)) :=
  startWord N wire ::
    (dataWords N (wire.drop (N - 1)) ++
      (if (wire.drop (N - 1)).length % N = 0 then [termWord N] else []) ++
      [idleWord N])

theorem dataWords_nil (N : Nat) : dataWords N [] = [] := rfl

theorem dataWords_cons (N : Nat) (pkt : List Nat) (hN : N ≠ 0)
    (hp : pkt ≠ []) :
    dataWords N pkt = dataWord N pkt :: dataWords N (pkt.drop N) := by
  obtain ⟨b, rest, rfl⟩ := List.exists_cons_of_ne_nil hp
  simp only [dataWords, List.length_cons, dataWordsAux, hN, if_false]
  refine congrArg _ (dataWordsAux_congr N _ _ _ ?_ ?_) <;>
    simp only [List.length_drop, List.length_cons] <;> omega

/-- In the data loop, every word before the terminating one is all data. -/
theorem dataWords_all_data (N : Nat) (hN : 0 < N) :
    ∀ (k : Nat) (pkt : List Nat), pkt.length ≤ k → pkt.length % N = 0 →
      ∀ w ∈ dataWords N pkt, ∀ p ∈ w, (p : Nat × Bool).2 = false := by
  intro k
  induction k with
  | zero =>
    intro pkt hk _ w hw
    have : pkt = [] := List.eq_nil_of_length_eq_zero (by omega)
    subst this
    rw [dataWords_nil] at hw
    simp at hw
  | succ k ih =>
    intro pkt hk hmod w hw p hp
    by_cases hpe : pkt = []
    · subst hpe; rw [dataWords_nil] at hw; simp at hw
    · rw [dataWords_cons N pkt (by omega) hpe] at hw
      have hNle : N ≤ pkt.length := by
        rcases Nat.lt_or_ge pkt.length N with h | h
        · rw [Nat.mod_eq_of_lt h] at hmod
          exact absurd (List.eq_nil_of_length_eq_zero hmod) hpe
        · exact h
      rcases List.mem_cons.mp hw with rfl | hw2
      · rw [dataWord, if_neg (by omega)] at hp
        obtain ⟨b, hbm, rfl⟩ := List.mem_map.mp hp
        rfl
      · refine ih (pkt.drop N) ?_ ?_ w hw2 p hp
        · simp only [List.length_drop]; omega
        · simp only [List.length_drop]
          have hmr := Nat.add_mod_right (pkt.length - N) N
          rw [Nat.sub_add_cancel hNle] at hmr
          rw [hmr] at hmod
          exact hmod

/-- When the remaining length is `N-1` mod `N`, the data loop ends with a
word whose last lane (lane `N-1`) is the terminate symbol. -/
theorem dataWords_last_term (N : Nat) (hN : 2 ≤ N) :
    ∀ (k : Nat) (pkt : List Nat), pkt.length ≤ k → pkt.length % N = N - 1 →
      ∃ ws w, dataWords N pkt = ws ++ [w] ∧
        w.getLast? = some (XGMII_TERMINATE, true) ∧ w.length = N := by
  intro k
  induction k with
  | zero =>
    intro pkt hk hmod
    have : pkt.length = 0 := by omega
    rw [this, Nat.zero_mod] at hmod
    omega
  | succ k ih =>
    intro pkt hk hmod
    have hpos : 0 < pkt.length := by
      rcases Nat.eq_zero_or_pos pkt.length with h | h
      · rw [h, Nat.zero_mod] at hmod; omega
      · exact h
    have hpe : pkt ≠ [] := fun h => by simp [h] at hpos
    rw [dataWords_cons N pkt (by omega) hpe]
    rcases Nat.lt_or_ge pkt.length N with hlt | hge
    · have hlen : pkt.length = N - 1 := by
        rw [Nat.mod_eq_of_lt hlt] at hmod
        exact hmod
      refine ⟨[], dataWord N pkt, ?_, ?_, ?_⟩
      · have hdrop : pkt.drop N = [] := List.drop_eq_nil_of_le (by omega)
        rw [hdrop, dataWords_nil]
        simp
      · rw [dataWord, if_pos hlt]
        have : N - pkt.length - 1 = 0 := by omega
        rw [this]
        simp
      · rw [dataWord, if_pos hlt]
        simp only [List.length_append, List.length_map, List.length_cons,
          List.length_replicate]
        omega
    · obtain ⟨ws, w, hws, hlast, hlen⟩ := ih (pkt.drop N)
        (by simp only [List.length_drop]; omega)
        (by
          simp only [List.length_drop]
          have hmr := Nat.add_mod_right (pkt.length - N) N
          rw [Nat.sub_add_cancel hge] at hmr
          rw [hmr] at hmod
          exact hmod)
      exact ⟨dataWord N pkt :: ws, w, by rw [hws]; rfl, hlast, hlen⟩

/-- **C4.** If the wire-frame byte count remaining after the initial start
word is an exact multiple of the bus width `N`, `_driver_send` emits one
extra word with the terminate symbol at lane 0 and idles at lanes
`1..N-1` (before the final idle word); if that count is one byte short of
a multiple of `N`, the terminator lands on the last lane of the final data
word and no extra terminate word is emitted. -/
theorem boundary_termination (raw : List Nat) (N : Nat) (hN : N = 4 ∨ N = 8) :
    (((layer1 raw).drop (N - 1)).length % N = 0 →
      txWords N (layer1 raw) =
        startWord N (layer1 raw) ::
          dataWords N ((layer1 raw).drop (N - 1)) ++ [termWord N, idleWord N] ∧
      termWord N =
        (XGMII_TERMINATE, true) :: List.replicate (N - 1) (XGMII_IDLE, true) ∧
      (∀ w ∈ dataWords N ((layer1 raw).drop (N - 1)),
        ∀ p ∈ w, (p : Nat × Bool).2 = false)) ∧
    (((layer1 raw).drop (N - 1)).length % N = N - 1 →
      txWords N (layer1 raw) =
        startWord N (layer1 raw) ::
          dataWords N ((layer1 raw).drop (N - 1)) ++ [idleWord N] ∧
      ∃ ws w, dataWords N ((layer1 raw).drop (N - 1)) = ws ++ [w] ∧
        w.getLast? = some (XGMII_TERMINATE, true) ∧ w.length = N) := by
  have hN0 : 0 < N := by omega
  constructor
  · intro hmod
    refine ⟨?_, rfl, ?_⟩
    · rw [txWords, if_pos hmod]
      simp
    · exact dataWords_all_data N hN0 _ _ le_rfl hmod
  · intro hmod
    have hne : ((layer1 raw).drop (N - 1)).length % N ≠ 0 := by omega
    refine ⟨?_, ?_⟩
    · rw [txWords, if_neg hne]
      simp
    · exact dataWords_last_term N (by omega) _ _ le_rfl hmod

/-- Frame-level diagnostics logged by `XGMII._monitor_recv`: the runt
warning (`len < 64 + 7`), the too-short drop (`len < 12`), the bad
preamble/SFD drop, and the CRC mismatch report. -/
inductive Diag where
  | RuntFrame
  | Truncated
  | BadPreamble
  | ChecksumMismatch
deriving DecidableEq

/-- `XGMII._add_payload` from the monitor: walk the lanes of a word in
order; a data lane appends its byte to the packet; a control lane stops
the walk (`False`) — and additionally clears the packet if the control
byte is not the terminate symbol; a word of pure data returns `True`
(keep accumulating). -/
def addPayload : List Nat → List (Nat × Bool) → List Nat × Bool
  | pkt, [] => (pkt, true)
  | pkt, (b, c) :: rest =>
    if c then
      if b ≠ XGMII_TERMINATE then ([], false) else (pkt, false)
    else addPayload (pkt ++ [b]) rest

/-- The `if self._pkt:` block at the bottom of `XGMII._monitor_recv`:
drop empty or too-short packets, drop packets with a bad preamble/SFD,
report (but deliver through) runt frames and CRC mismatches, return the
payload `pkt[7:-4]`. -/
def processPkt (pkt : List Nat) : Option (List Nat) × List Diag :=
  if pkt.isEmpty then (none, [])
  else
    let runt := if pkt.length < 64 + 7 then [Diag.RuntFrame] else []
    if pkt.length < 12 then (none, runt ++ [Diag.Truncated])
    else
      let payload := (pkt.drop 7).take (pkt.length - 11)
      if pkt.take 7 ≠ PREAMBLE_SFD then (none, runt ++ [Diag.BadPreamble])
      else if pkt.drop (pkt.length - 4) ≠ le32 (crc32 payload &&& 0xFFFFFFFF) then
        (some payload, runt ++ [Diag.ChecksumMismatch])
      else (some payload, runt)

/-- The inner `while self._add_payload(...)` loop of `XGMII._monitor_recv`:
feed the current word's lanes to `addPayload`, and while it keeps
returning `True` pull the next word; returns the final packet and the
unconsumed words, or `none` if the word stream ends mid-frame. -/
def accumulate : List Nat → List (Nat × Bool) → List (List (Nat × Bool)) →
    Option (List Nat × List (List (Nat × Bool)))
  | pkt, lanes, [] =>
    match addPayload pkt lanes with
    | (p, false) => some (p, [])
    | (_, true) => none
  | pkt, lanes, w :: ws =>
    match addPayload pkt lanes with
    | (p, false) => some (p, w :: ws)
    | (p, true) => accumulate p w ws

theorem accumulate_rest_le (ws : List (List (Nat × Bool))) :
    ∀ (pkt : List Nat) (lanes : List (Nat × Bool)) (p : List Nat)
      (ws2 : List (List (Nat × Bool))),
      accumulate pkt lanes ws = some (p, ws2) → ws2.length ≤ ws.length := by
  induction ws with
  | nil =>
    intro pkt lanes p ws2 h
    rcases h2 : addPayload pkt lanes with ⟨q, b⟩
    cases b
    · simp only [accumulate, h2] at h
      obtain ⟨_, rfl⟩ := h
      simp
    · simp only [accumulate, h2] at h
      exact Option.noConfusion h
  | cons w ws ih =>
    intro pkt lanes p ws2 h
    rcases h2 : addPayload pkt lanes with ⟨q, b⟩
    cases b
    · simp only [accumulate, h2] at h
      obtain ⟨_, rfl⟩ := h
      simp
    · simp only [accumulate, h2] at h
      have := ih q w p ws2 h
      simp only [List.length_cons]
      omega

/-- `ctrl[i] and bytes[i] == _XGMII_START` for lane `i` of a word. -/
def isStartLane (w : List (Nat × Bool)) (i : Nat) : Bool :=
  match w[i]? with
  | some (b, c) => c && (b == XGMII_START)
  | none => false

/-- Fuel-indexed form of the outer `while True:` loop of
`XGMII._monitor_recv` over a finite word stream; every outer iteration
consumes at least one word, so the stream length suffices as fuel.
Returns the payloads delivered to `self._recv` in order. -/
def monitorRunAux (N : Nat) : Nat → List (List (Nat × Bool)) → List (List Nat)
  | 0, _ => []
  | _, [] => []
  | fuel + 1, w :: ws =>
    if isStartLane w 0 then
      match accumulate [] (w.drop 1) ws with
      | none => []
      | some (pkt, ws2) => ((processPkt pkt).1).toList ++ monitorRunAux N fuel ws2
    else if N == 8 && isStartLane w 4 then
      match accumulate [] (w.drop 5) ws with
      | none => []
      | some (pkt, ws2) => ((processPkt pkt).1).toList ++ monitorRunAux N fuel ws2
    else monitorRunAux N fuel ws

/-- The receive engine on a finite word stream. -/
def monitorRun (N : Nat) (ws : List (List (Nat × Bool))) : List (List Nat) :=
  monitorRunAux N ws.length ws

theorem monitorRunAux_congr (N : Nat) :
    ∀ (f1 : Nat) (ws : List (List (Nat × Bool))) (f2 : Nat),
      ws.length ≤ f1 → ws.length ≤ f2 →
      monitorRunAux N f1 ws = monitorRunAux N f2 ws := by
  intro f1
  induction f1 with
  | zero =>
    intro ws f2 h1 _
    have : ws = [] := List.eq_nil_of_length_eq_zero (by omega)
    subst this
    cases f2 <;> rfl
  | succ f1 ih =>
    intro ws f2 h1 h2
    cases ws with
    | nil => cases f2 <;> rfl
    | cons w ws =>
      cases f2 with
      | zero => simp at h2
      | succ f2 =>
        simp only [monitorRunAux]
        simp only [List.length_cons] at h1 h2
        by_cases h0 : isStartLane w 0
        · simp only [h0, eq_self_iff_true, if_true]
          rcases hacc : accumulate [] (w.drop 1) ws with _ | ⟨pkt, ws2⟩
          · simp only [hacc]
          · simp only [hacc]
            have hle := accumulate_rest_le ws [] (w.drop 1) pkt ws2 hacc
            exact congrArg _ (ih ws2 f2 (by omega) (by omega))
        · have hb0 : isStartLane w 0 = false := by simpa using h0
          simp only [hb0, Bool.false_eq_true, if_false]
          by_cases h4 : (N == 8 && isStartLane w 4) = true
          · simp only [h4, eq_self_iff_true, if_true]
            rcases hacc : accumulate [] (w.drop 5) ws with _ | ⟨pkt, ws2⟩
            · simp only [hacc]
            · simp only [hacc]
              have hle := accumulate_rest_le ws [] (w.drop 5) pkt ws2 hacc
              exact congrArg _ (ih ws2 f2 (by omega) (by omega))
          · have hb4 : (N == 8 && isStartLane w 4) = false := by simpa using h4
            simp only [hb4, Bool.false_eq_true, if_false]
            exact ih ws f2 (by omega) (by omega)

theorem monitorRun_nil (N : Nat) : monitorRun N [] = [] := rfl

theorem monitorRun_start0 (N : Nat) (w : List (Nat × Bool))
    (ws ws2 : List (List (Nat × Bool))) (pkt : List Nat)
    (h0 : isStartLane w 0 = true)
    (hacc : accumulate [] (w.drop 1) ws = some (pkt, ws2)) :
    monitorRun N (w :: ws) = ((processPkt pkt).1).toList ++ monitorRun N ws2 := by
  have hle := accumulate_rest_le ws [] (w.drop 1) pkt ws2 hacc
  simp only [monitorRun, List.length_cons, monitorRunAux, h0, if_true, hacc]
  exact congrArg _ (monitorRunAux_congr N ws.length ws2 ws2.length hle le_rfl)

theorem monitorRun_start4 (N : Nat) (w : List (Nat × Bool))
    (ws ws2 : List (List (Nat × Bool))) (pkt : List Nat)
    (h0 : isStartLane w 0 = false) (h4 : (N == 8 && isStartLane w 4) = true)
    (hacc : accumulate [] (w.drop 5) ws = some (pkt, ws2)) :
    monitorRun N (w :: ws) = ((processPkt pkt).1).toList ++ monitorRun N ws2 := by
  have hle := accumulate_rest_le ws [] (w.drop 5) pkt ws2 hacc
  simp only [monitorRun, List.length_cons, monitorRunAux, h0, h4, if_true,
    if_false, Bool.false_eq_true, hacc]
  exact congrArg _ (monitorRunAux_congr N ws.length ws2 ws2.length hle le_rfl)

theorem monitorRun_skip (N : Nat) (w : List (Nat × Bool))
    (ws : List (List (Nat × Bool)))
    (h0 : isStartLane w 0 = false) (h4 : (N == 8 && isStartLane w 4) = false) :
    monitorRun N (w :: ws) = monitorRun N ws := by
  simp only [monitorRun, List.length_cons, monitorRunAux, h0, h4, if_false,
    Bool.false_eq_true]

theorem monitorRun_start0_none (N : Nat) (w : List (Nat × Bool))
    (ws : List (List (Nat × Bool))) (h0 : isStartLane w 0 = true)
    (hacc : accumulate [] (w.drop 1) ws = none) :
    monitorRun N (w :: ws) = [] := by
  simp only [monitorRun, List.length_cons, monitorRunAux, h0, if_true, hacc]

theorem monitorRun_start4_none (N : Nat) (w : List (Nat × Bool))
    (ws : List (List (Nat × Bool))) (h0 : isStartLane w 0 = false)
    (h4 : (N == 8 && isStartLane w 4) = true)
    (hacc : accumulate [] (w.drop 5) ws = none) :
    monitorRun N (w :: ws) = [] := by
  simp only [monitorRun, List.length_cons, monitorRunAux, h0, h4, if_true,
    if_false, Bool.false_eq_true, hacc]

/-- **C5.** On an 8-lane bus, a word whose lane 0 is not a start symbol
but whose lane 4 is `(START, control=true)` makes the scanning engine
transition to accumulating, feeding lanes 5..7 of that same word to the
payload accumulator; when those lanes are data lanes their bytes become
the first three payload bytes. -/
theorem start_at_lane4 (l0 l1 l2 l3 l5 l6 l7 : Nat × Bool)
    (ws : List (List (Nat × Bool)))
    (h0 : isStartLane [l0, l1, l2, l3, (XGMII_START, true), l5, l6, l7] 0 = false) :
    monitorRun 8 ([l0, l1, l2, l3, (XGMII_START, true), l5, l6, l7] :: ws) =
      (match accumulate [] [l5, l6, l7] ws with
       | none => []
       | some (pkt, ws2) => ((processPkt pkt).1).toList ++ monitorRun 8 ws2) ∧
    (∀ x y z : Nat, l5 = (x, false) → l6 = (y, false) → l7 = (z, false) →
      accumulate [] [l5, l6, l7] ws = accumulate [x, y, z] [] ws) := by
  have h4 : ((8 : Nat) == 8 &&
      isStartLane [l0, l1, l2, l3, (XGMII_START, true), l5, l6, l7] 4) = true := by
    simp [isStartLane]
  constructor
  · rcases hacc : accumulate [] [l5, l6, l7] ws with _ | ⟨pkt, ws2⟩
    · rw [monitorRun_start4_none 8 _ ws h0 h4 hacc]
    · rw [monitorRun_start4 8 _ ws ws2 pkt h0 h4 hacc]
  · rintro x y z rfl rfl rfl
    cases ws <;> simp [accumulate, addPayload]

/-- Witness for C5 at a concrete word with idles in lanes 0..3. -/
theorem start_at_lane4_witness :
    monitorRun 8 ([[(0x07, true), (0x07, true), (0x07, true), (0x07, true),
        (XGMII_START, true), (0x55, false), (0x55, false), (0x55, false)]]) =
      (match accumulate [] [(0x55, false), (0x55, false), (0x55, false)] [] with
       | none => []
       | some (pkt, ws2) => ((processPkt pkt).1).toList ++ monitorRun 8 ws2) ∧
    (∀ x y z : Nat, ((0x55 : Nat), false) = (x, false) →
      ((0x55 : Nat), false) = (y, false) → ((0x55 : Nat), false) = (z, false) →
      accumulate [] [(0x55, false), (0x55, false), (0x55, false)] [] =
        accumulate [x, y, z] [] []) :=
  start_at_lane4 (0x07, true) (0x07, true) (0x07, true) (0x07, true)
    (0x55, false) (0x55, false) (0x55, false) [] (by decide)

/-- **C6.** A frame with a good preamble but whose last 4 bytes are not the
little-endian CRC-32 of the middle bytes is reported as a checksum
mismatch yet the stripped payload is still delivered. -/
theorem checksum_mismatch_still_delivers (pkt : List Nat)
    (hlen : 12 ≤ pkt.length) (hpre : pkt.take 7 = PREAMBLE_SFD)
    (hcrc : pkt.drop (pkt.length - 4) ≠
      le32 (crc32 ((pkt.drop 7).take (pkt.length - 11)) &&& 0xFFFFFFFF)) :
    (processPkt pkt).1 = some ((pkt.drop 7).take (pkt.length - 11)) ∧
    Diag.ChecksumMismatch ∈ (processPkt pkt).2 := by
  have hne : pkt ≠ [] := by
    intro h
    rw [h] at hlen
    simp at hlen
  have h12 : ¬ pkt.length < 12 := by omega
  have hpre2 : ¬ pkt.take 7 ≠ PREAMBLE_SFD := by simp [hpre]
  simp only [processPkt, List.isEmpty_iff, hne, if_false, h12, hpre2, hcrc,
    if_true]
  rw [if_pos hcrc]
  simp

/-- Witness for C6 at a concrete 12-byte frame with a zeroed checksum. -/
theorem checksum_mismatch_still_delivers_witness :
    (processPkt (PREAMBLE_SFD ++ [1, 0, 0, 0, 0])).1 =
      some (((PREAMBLE_SFD ++ [1, 0, 0, 0, 0]).drop 7).take
        ((PREAMBLE_SFD ++ [1, 0, 0, 0, 0]).length - 11)) ∧
    Diag.ChecksumMismatch ∈ (processPkt (PREAMBLE_SFD ++ [1, 0, 0, 0, 0])).2 :=
  checksum_mismatch_still_delivers (PREAMBLE_SFD ++ [1, 0, 0, 0, 0])
    (by decide) (by decide) (by decide)

/-- **C7.** An accumulated frame of length ≥ 12 whose first 7 bytes are
not the preamble/SFD is dropped: `deframe` reports a bad preamble, no
payload is delivered, and the engine goes back to scanning the remaining
words with an empty buffer. -/
theorem bad_preamble_discards (N : Nat) (w : List (Nat × Bool))
    (ws ws2 : List (List (Nat × Bool))) (pkt : List Nat)
    (hstart : isStartLane w 0 = true)
    (hacc : accumulate [] (w.drop 1) ws = some (pkt, ws2))
    (hlen : 12 ≤ pkt.length) (hpre : pkt.take 7 ≠ PREAMBLE_SFD) :
    (processPkt pkt).1 = none ∧ Diag.BadPreamble ∈ (processPkt pkt).2 ∧
    monitorRun N (w :: ws) = monitorRun N ws2 := by
  have hne : pkt ≠ [] := by
    intro h
    rw [h] at hlen
    simp at hlen
  have h12 : ¬ pkt.length < 12 := by omega
  have hp : (processPkt pkt) =
      (none, (if pkt.length < 64 + 7 then [Diag.RuntFrame] else []) ++
        [Diag.BadPreamble]) := by
    simp only [processPkt, List.isEmpty_iff, hne, if_false, h12, if_true]
    rw [if_pos hpre]
  refine ⟨by rw [hp], by rw [hp]; simp, ?_⟩
  rw [monitorRun_start0 N w ws ws2 pkt hstart hacc, hp]
  simp

/-- Witness for C7: a started frame of 15 junk bytes is dropped. -/
theorem bad_preamble_discards_witness :
    (processPkt [1, 2, 3, 4, 5, 6, 7, 8, 9, 10, 11, 12, 13, 14, 15]).1 = none ∧
    Diag.BadPreamble ∈
      (processPkt [1, 2, 3, 4, 5, 6, 7, 8, 9, 10, 11, 12, 13, 14, 15]).2 ∧
    monitorRun 4 ([(XGMII_START, true), (1, false), (2, false), (3, false)] ::
        [[(4, false), (5, false), (6, false), (7, false)],
         [(8, false), (9, false), (10, false), (11, false)],
         [(12, false), (13, false), (14, false), (15, false)],
         [(XGMII_TERMINATE, true), (XGMII_IDLE, true), (XGMII_IDLE, true),
          (XGMII_IDLE, true)]]) =
      monitorRun 4 [] :=
  bad_preamble_discards 4
    [(XGMII_START, true), (1, false), (2, false), (3, false)]
    [[(4, false), (5, false), (6, false), (7, false)],
     [(8, false), (9, false), (10, false), (11, false)],
     [(12, false), (13, false), (14, false), (15, false)],
     [(XGMII_TERMINATE, true), (XGMII_IDLE, true), (XGMII_IDLE, true),
      (XGMII_IDLE, true)]] []
    [1, 2, 3, 4, 5, 6, 7, 8, 9, 10, 11, 12, 13, 14, 15]
    (by decide) (by decide) (by decide) (by decide)

set_option maxRecDepth 10000 in
/-- Witness for C4: the 1-byte frame on the 4-lane bus leaves 68 bytes
after the start word (a multiple of 4), so an extra terminate word is
emitted. -/
theorem boundary_termination_witness :
    txWords 4 (layer1 [0xAA]) =
      startWord 4 (layer1 [0xAA]) ::
        dataWords 4 ((layer1 [0xAA]).drop (4 - 1)) ++ [termWord 4, idleWord 4] ∧
    termWord 4 =
      (XGMII_TERMINATE, true) :: List.replicate (4 - 1) (XGMII_IDLE, true) ∧
    (∀ w ∈ dataWords 4 ((layer1 [0xAA]).drop (4 - 1)),
      ∀ p ∈ w, (p : Nat × Bool).2 = false) :=
  (boundary_termination [0xAA] 4 (by norm_num)).1 (by decide)

theorem addPayload_data_front (pre : List (Nat × Bool)) :
    ∀ (pkt : List Nat) (rest : List (Nat × Bool)),
      (∀ p ∈ pre, (p : Nat × Bool).2 = false) →
      addPayload pkt (pre ++ rest) = addPayload (pkt ++ pre.map Prod.fst) rest := by
  induction pre with
  | nil => intro pkt rest _; simp
  | cons hd tl ih =>
    intro pkt rest h
    obtain ⟨b, c⟩ := hd
    have hc : c = false := h (b, c) (by simp)
    subst hc
    simp only [List.cons_append, addPayload, Bool.false_eq_true, if_false,
      List.append_eq]
    rw [ih (pkt ++ [b]) rest (fun p hp => h p (by simp [hp]))]
    simp

set_option maxRecDepth 10000 in
/-- **C8** (counterexample to the claim as stated): while accumulating, a
word can contain a control lane whose byte is not the terminate symbol
(idle lanes after the terminate) and yet the engine neither discards the
accumulated bytes nor suppresses delivery: the terminate at an earlier
lane ends the frame normally and the stripped payload is delivered. -/
theorem ctrl_lane_without_abort :
    (∃ p ∈ ([(5, false), (XGMII_TERMINATE, true), (XGMII_IDLE, true),
        (XGMII_IDLE, true)] : List (Nat × Bool)),
      (p : Nat × Bool).2 = true ∧ (p : Nat × Bool).1 ≠ XGMII_TERMINATE) ∧
    addPayload [1, 2, 3]
      [(5, false), (XGMII_TERMINATE, true), (XGMII_IDLE, true),
       (XGMII_IDLE, true)] = ([1, 2, 3, 5], false) ∧
    monitorRun 4
      [[(XGMII_START, true), (0x55, false), (0x55, false), (0x55, false)],
       [(0x55, false), (0x55, false), (0x55, false), (0xD5, false)],
       [(1, false), (2, false), (3, false), (4, false)],
       [(5, false), (XGMII_TERMINATE, true), (XGMII_IDLE, true),
        (XGMII_IDLE, true)]] = [[1]] := by
  decide

/-- **C8** (amended): if the *first* control lane of a word processed while
accumulating carries a byte other than the terminate symbol, the engine
aborts: the accumulated bytes are discarded, nothing is delivered, and
scanning resumes on the remaining words with an empty buffer. -/
theorem first_ctrl_violation_aborts (N : Nat) (pkt : List Nat)
    (pre post : List (Nat × Bool)) (x : Nat) (ws : List (List (Nat × Bool)))
    (hpre : ∀ p ∈ pre, (p : Nat × Bool).2 = false)
    (hx : x ≠ XGMII_TERMINATE) :
    addPayload pkt (pre ++ (x, true) :: post) = ([], false) ∧
    accumulate pkt (pre ++ (x, true) :: post) ws = some ([], ws) ∧
    processPkt [] = (none, []) ∧
    (∀ w, isStartLane w 0 = true → w.drop 1 = pre ++ (x, true) :: post →
      monitorRun N (w :: ws) = monitorRun N ws) := by
  have h1 : ∀ q : List Nat, addPayload q (pre ++ (x, true) :: post) = ([], false) := by
    intro q
    rw [addPayload_data_front pre q _ hpre]
    simp [addPayload, hx]
  have h2 : ∀ (q : List Nat) (ws' : List (List (Nat × Bool))),
      accumulate q (pre ++ (x, true) :: post) ws' = some ([], ws') := by
    intro q ws'
    cases ws' <;> simp [accumulate, h1 q]
  refine ⟨h1 pkt, h2 pkt ws, rfl, fun w hw hdrop => ?_⟩
  rw [monitorRun_start0 N w ws ws [] hw (by rw [hdrop]; exact h2 [] ws)]
  simp [processPkt]

/-- Witness for the amended C8 at a concrete mid-frame violation word. -/
theorem first_ctrl_violation_aborts_witness :
    addPayload [9] ([(1, false)] ++ (5, true) :: [(0x07, true)]) = ([], false) ∧
    accumulate [9] ([(1, false)] ++ (5, true) :: [(0x07, true)]) [] =
      some ([], []) ∧
    processPkt [] = (none, []) ∧
    (∀ w, isStartLane w 0 = true → w.drop 1 = [(1, false)] ++ (5, true) :: [(0x07, true)] →
      monitorRun 4 (w :: []) = monitorRun 4 []) :=
  first_ctrl_violation_aborts 4 [9] [(1, false)] [(0x07, true)] 5 []
    (by decide) (by decide)

theorem map_fst_false (l : List Nat) :
    List.map (Prod.fst ∘ fun b => (b, false)) l = l := by
  induction l with
  | nil => rfl
  | cons b t ih =>
    simp only [List.map_cons, ih]
    rfl

theorem addPayload_data (acc l : List Nat) :
    addPayload acc (l.map (fun b => (b, false))) = (acc ++ l, true) := by
  have h := addPayload_data_front (l.map (fun b => (b, false))) acc []
    (by simp)
  simpa [map_fst_false] using h

theorem accumulate_of_addPayload_true (acc p : List Nat)
    (lanes : List (Nat × Bool)) (ws : List (List (Nat × Bool)))
    (h : addPayload acc lanes = (p, true)) :
    accumulate acc lanes ws = accumulate p [] ws := by
  cases ws <;> simp [accumulate, h, addPayload]

/-- Feeding the data-loop words (plus the boundary terminate word when the
byte count is a multiple of the width) to the accumulating monitor
collects exactly those bytes and stops at the terminate symbol. -/
theorem accumulate_dataWords (N : Nat) (hN : 0 < N) :
    ∀ (k : Nat) (rest acc : List Nat) (tail : List (List (Nat × Bool))),
      rest.length ≤ k →
      accumulate acc []
        (dataWords N rest ++
          (if rest.length % N = 0 then [termWord N] else []) ++ tail) =
      some (acc ++ rest, tail) := by
  intro k
  induction k with
  | zero =>
    intro rest acc tail hk
    have hr : rest = [] := List.eq_nil_of_length_eq_zero (by omega)
    subst hr
    rw [dataWords_nil]
    simp only [List.length_nil, Nat.zero_mod, if_true, List.nil_append,
      List.append_nil, List.cons_append, eq_self_iff_true]
    cases tail <;> simp [accumulate, addPayload, termWord]
  | succ k ih =>
    intro rest acc tail hk
    by_cases hr : rest = []
    · subst hr
      rw [dataWords_nil]
      simp only [List.length_nil, Nat.zero_mod, if_true, List.nil_append,
        List.append_nil, List.cons_append, eq_self_iff_true]
      cases tail <;> simp [accumulate, addPayload, termWord]
    · have hpos : 0 < rest.length := List.length_pos.mpr hr
      rcases Nat.lt_or_ge rest.length N with hlt | hge
      · have hmod : rest.length % N ≠ 0 := by
          rw [Nat.mod_eq_of_lt hlt]
          omega
        rw [dataWords_cons N rest (by omega) hr,
          List.drop_eq_nil_of_le (le_of_lt hlt), dataWords_nil, if_neg hmod]
        simp only [List.append_nil, List.cons_append, List.nil_append]
        have hdata : ∀ p ∈ (rest.map fun b => (b, false)),
            (p : Nat × Bool).2 = false := by
          intro p hp
          obtain ⟨b, _, rfl⟩ := List.mem_map.mp hp
          rfl
        have hterm : addPayload acc (dataWord N rest) = (acc ++ rest, false) := by
          rw [dataWord, if_pos hlt, addPayload_data_front _ acc _ hdata]
          rw [List.map_map, map_fst_false]
          simp [addPayload]
        cases tail <;> simp [accumulate, addPayload, hterm]
      · have hfull : addPayload acc (dataWord N rest) =
            (acc ++ rest.take N, true) := by
          rw [dataWord, if_neg (by omega)]
          exact addPayload_data acc (rest.take N)
        rw [dataWords_cons N rest (by omega) hr]
        simp only [List.cons_append]
        have hstep : accumulate acc []
            ((dataWord N rest) ::
              (dataWords N (rest.drop N) ++
                (if rest.length % N = 0 then [termWord N] else []) ++ tail)) =
            accumulate (acc ++ rest.take N) []
              (dataWords N (rest.drop N) ++
                (if rest.length % N = 0 then [termWord N] else []) ++ tail) := by
          rw [show accumulate acc []
              ((dataWord N rest) ::
                (dataWords N (rest.drop N) ++
                  (if rest.length % N = 0 then [termWord N] else []) ++ tail)) =
              accumulate acc (dataWord N rest)
                (dataWords N (rest.drop N) ++
                  (if rest.length % N = 0 then [termWord N] else []) ++ tail)
            from by simp [accumulate, addPayload]]
          exact accumulate_of_addPayload_true acc _ _ _ hfull
        rw [hstep]
        have hiff : rest.length % N = (rest.length - N) % N := by
          have hmr := Nat.add_mod_right (rest.length - N) N
          rw [Nat.sub_add_cancel hge] at hmr
          exact hmr
        have ihh := ih (rest.drop N) (acc ++ rest.take N) tail
          (by simp only [List.length_drop]; omega)
        rw [List.length_drop, ← hiff] at ihh
        rw [ihh, List.append_assoc, List.take_append_drop]

theorem isStartLane_idle (N i : Nat) : isStartLane (idleWord N) i = false := by
  simp only [isStartLane, idleWord, List.getElem?_replicate]
  by_cases h : i < N <;> simp [h, XGMII_IDLE, XGMII_START]

/-- One full `_driver_send` word sequence observed by the monitor delivers
exactly the frame-processing result of the whole wire frame. -/
theorem monitorRun_txWords (N : Nat) (wire : List Nat) (hN : 0 < N) :
    monitorRun N (txWords N wire) = ((processPkt wire).1).toList := by
  have hstart : isStartLane (startWord N wire) 0 = true := by
    simp [isStartLane, startWord]
  have h2 : addPayload [] ((wire.take (N - 1)).map (fun b => (b, false))) =
      ([] ++ wire.take (N - 1), true) := addPayload_data [] (wire.take (N - 1))
  have hacc : accumulate [] ((startWord N wire).drop 1)
      (dataWords N (wire.drop (N - 1)) ++
        (if (wire.drop (N - 1)).length % N = 0 then [termWord N] else []) ++
        [idleWord N]) = some (wire, [idleWord N]) := by
    rw [show (startWord N wire).drop 1 =
        (wire.take (N - 1)).map (fun b => (b, false)) from rfl]
    rw [accumulate_of_addPayload_true _ _ _ _ h2]
    rw [accumulate_dataWords N hN (wire.drop (N - 1)).length (wire.drop (N - 1))
      ([] ++ wire.take (N - 1)) [idleWord N] le_rfl]
    simp [List.take_append_drop]
  rw [show txWords N wire = startWord N wire ::
      (dataWords N (wire.drop (N - 1)) ++
        (if (wire.drop (N - 1)).length % N = 0 then [termWord N] else []) ++
        [idleWord N]) from rfl]
  rw [monitorRun_start0 N _ _ [idleWord N] wire hstart hacc]
  rw [monitorRun_skip N _ [] (isStartLane_idle N 0)
    (by rw [isStartLane_idle N 4]; simp), monitorRun_nil]
  simp

theorem paddedPayload_length (raw : List Nat) :
    (paddedPayload raw).length = max 60 raw.length := by
  simp only [paddedPayload, List.length_append, List.length_replicate]
  omega

/-- Frame processing of a `layer1` wire frame always delivers the padded
payload (the CRC always agrees, the preamble is the constant). -/
theorem processPkt_layer1 (raw : List Nat) :
    (processPkt (layer1 raw)).1 = some (paddedPayload raw) := by
  rw [layer1_eq]
  have hplen : 60 ≤ (paddedPayload raw).length := by
    rw [paddedPayload_length]
    omega
  have hlen : (PREAMBLE_SFD ++ paddedPayload raw ++
      le32 (crc32 (paddedPayload raw))).length = (paddedPayload raw).length + 11 := by
    simp [PREAMBLE_SFD, le32]
  have hne : PREAMBLE_SFD ++ paddedPayload raw ++
      le32 (crc32 (paddedPayload raw)) ≠ [] := by
    intro h
    have := congrArg List.length h
    rw [hlen] at this
    simp at this
  have h12 : ¬ (PREAMBLE_SFD ++ paddedPayload raw ++
      le32 (crc32 (paddedPayload raw))).length < 12 := by
    rw [hlen]
    omega
  have h7 : PREAMBLE_SFD.length = 7 := rfl
  have htake : (PREAMBLE_SFD ++ paddedPayload raw ++
      le32 (crc32 (paddedPayload raw))).take 7 = PREAMBLE_SFD := by
    rw [List.append_assoc]
    exact List.take_left' h7
  have hpre2 : ¬ (PREAMBLE_SFD ++ paddedPayload raw ++
      le32 (crc32 (paddedPayload raw))).take 7 ≠ PREAMBLE_SFD := by
    rw [htake]
    simp
  have hpayload : ((PREAMBLE_SFD ++ paddedPayload raw ++
      le32 (crc32 (paddedPayload raw))).drop 7).take
        ((PREAMBLE_SFD ++ paddedPayload raw ++
          le32 (crc32 (paddedPayload raw))).length - 11) = paddedPayload raw := by
    rw [hlen, List.append_assoc, List.drop_left' h7]
    rw [show (paddedPayload raw).length + 11 - 11 = (paddedPayload raw).length
      from by omega]
    rw [List.take_left]
  simp only [processPkt, List.isEmpty_iff, hne, if_false, h12, hpre2, if_true]
  rw [hpayload]
  split <;> rfl

/-- What the monitor reconstructs from a packed signal value: the
`(byte, control)` lanes given by `_get_bytes`. -/
def wordOfSignal (il : Bool) (N v : Nat) : List (Nat × Bool) :=
  ((getBytes il N v).2).zip ((getBytes il N v).1)

/-- Pack every emitted word onto the wire (`create_binary` of the built
integer per clock edge); `none` if any lane write were out of range. -/
def signalWords (il : Bool) (N : Nat) :
    List (List (Nat × Bool)) → Option (List Nat)
  | [] => some []
  | w :: ws =>
    match packWord il N w, signalWords il N ws with
    | some v, some vs => some (create_binary v (N * 9) :: vs)
    | _, _ => none

/-- Transmit a raw frame and observe the packed bus words with the
receive engine: `layer1` framing, the `_driver_send` word sequence, the
per-edge packed wire values, the monitor's `_get_bytes` unpacking, and
the `_monitor_recv` state machine. -/
def pipeline (il : Bool) (N : Nat) (raw : List Nat) :
    Option (List (List Nat)) :=
  (signalWords il N (txWords N (layer1 raw))).map
    (fun vs => monitorRun N (vs.map (wordOfSignal il N)))

theorem wordOfSignal_packWord (il : Bool) (N : Nat) (w : List (Nat × Bool))
    (hlen : w.length = N) (hb : ∀ p ∈ w, (p : Nat × Bool).1 < 256) :
    ∃ v, packWord il N w = some v ∧ wordOfSignal il N v = w := by
  obtain ⟨v, hv, hg⟩ := getBytes_packWord il N w hlen hb
  refine ⟨v, hv, ?_⟩
  rw [wordOfSignal, hg]
  simp only [List.zip_map']
  simp

theorem signalWords_roundtrip (il : Bool) (N : Nat) :
    ∀ ws : List (List (Nat × Bool)),
      (∀ w ∈ ws, w.length = N ∧ ∀ p ∈ w, (p : Nat × Bool).1 < 256) →
      ∃ vs, signalWords il N ws = some vs ∧
        vs.map (wordOfSignal il N) = ws := by
  intro ws
  induction ws with
  | nil => intro _; exact ⟨[], rfl, rfl⟩
  | cons w ws ih =>
    intro h
    obtain ⟨v, hv, hwv⟩ :=
      wordOfSignal_packWord il N w (h w (by simp)).1 (h w (by simp)).2
    obtain ⟨vs, hvs, hmap⟩ := ih (fun w2 hw2 => h w2 (by simp [hw2]))
    refine ⟨v :: vs, ?_, ?_⟩
    · simp [signalWords, hv, hvs, create_binary]
    · simp [create_binary, hwv, hmap]

theorem dataWords_wf (N : Nat) (hN : 0 < N) :
    ∀ (k : Nat) (pkt : List Nat), pkt.length ≤ k → (∀ b ∈ pkt, b < 256) →
      ∀ w ∈ dataWords N pkt,
        w.length = N ∧ ∀ p ∈ w, (p : Nat × Bool).1 < 256 := by
  intro k
  induction k with
  | zero =>
    intro pkt hk _ w hw
    have : pkt = [] := List.eq_nil_of_length_eq_zero (by omega)
    subst this
    rw [dataWords_nil] at hw
    simp at hw
  | succ k ih =>
    intro pkt hk hb w hw
    by_cases hpe : pkt = []
    · subst hpe
      rw [dataWords_nil] at hw
      simp at hw
    · rw [dataWords_cons N pkt (by omega) hpe] at hw
      rcases List.mem_cons.mp hw with rfl | hw2
      · rw [dataWord]
        by_cases hlt : pkt.length < N
        · rw [if_pos hlt]
          constructor
          · simp only [List.length_append, List.length_map, List.length_cons,
              List.length_replicate]
            omega
          · intro p hp
            rcases List.mem_append.mp hp with hp1 | hp2
            · obtain ⟨b, hbm, rfl⟩ := List.mem_map.mp hp1
              exact hb b hbm
            · rcases List.mem_cons.mp hp2 with rfl | hp3
              · norm_num [XGMII_TERMINATE]
              · rw [List.eq_of_mem_replicate hp3]
                norm_num [XGMII_IDLE]
        · rw [if_neg hlt]
          constructor
          · simp only [List.length_map, List.length_take]
            omega
          · intro p hp
            obtain ⟨b, hbm, rfl⟩ := List.mem_map.mp hp
            exact hb b (List.mem_of_mem_take hbm)
      · refine ih (pkt.drop N) ?_ (fun b hbm => hb b (List.mem_of_mem_drop hbm))
          w hw2
        simp only [List.length_drop]
        have : 0 < pkt.length := List.length_pos.mpr hpe
        omega

theorem txWords_wf (N : Nat) (wire : List Nat) (hN : 0 < N)
    (hw : N - 1 ≤ wire.length) (hb : ∀ b ∈ wire, b < 256) :
    ∀ w ∈ txWords N wire,
      w.length = N ∧ ∀ p ∈ w, (p : Nat × Bool).1 < 256 := by
  intro w hwm
  rw [txWords] at hwm
  rcases List.mem_cons.mp hwm with rfl | hw2
  · constructor
    · simp only [startWord, List.length_cons, List.length_map, List.length_take]
      omega
    · intro p hp
      rcases List.mem_cons.mp hp with rfl | hp2
      · norm_num [XGMII_START]
      · obtain ⟨b, hbm, rfl⟩ := List.mem_map.mp hp2
        exact hb b (List.mem_of_mem_take hbm)
  · rcases List.mem_append.mp hw2 with hw3 | hw4
    · rcases List.mem_append.mp hw3 with hw5 | hw6
      · exact dataWords_wf N hN (wire.drop (N - 1)).length (wire.drop (N - 1))
          le_rfl (fun b hbm => hb b (List.mem_of_mem_drop hbm)) w hw5
      · have hw7 : w = termWord N := by
          by_cases h : (wire.drop (N - 1)).length % N = 0
          · rw [if_pos h] at hw6
            simpa using hw6
          · rw [if_neg h] at hw6
            simp at hw6
        subst hw7
        constructor
        · simp only [termWord, List.length_cons, List.length_replicate]
          omega
        · intro p hp
          rcases List.mem_cons.mp hp with rfl | hp2
          · norm_num [XGMII_TERMINATE]
          · rw [List.eq_of_mem_replicate hp2]
            norm_num [XGMII_IDLE]
    · have hw7 : w = idleWord N := by simpa using hw4
      subst hw7
      constructor
      · simp [idleWord]
      · intro p hp
        rw [List.eq_of_mem_replicate hp]
        norm_num [XGMII_IDLE]

theorem layer1_bytes_lt (raw : List Nat) (hb : ∀ b ∈ raw, b < 256) :
    ∀ b ∈ layer1 raw, b < 256 := by
  rw [layer1_eq]
  intro b hbm
  rcases List.mem_append.mp hbm with hb1 | hb2
  · rcases List.mem_append.mp hb1 with hb3 | hb4
    · simp only [PREAMBLE_SFD, List.mem_cons, List.not_mem_nil, or_false] at hb3
      rcases hb3 with rfl | rfl | rfl | rfl | rfl | rfl | rfl <;> norm_num
    · rcases List.mem_append.mp hb4 with hb5 | hb6
      · exact hb b hb5
      · rw [List.eq_of_mem_replicate hb6]
        norm_num
  · simp only [le32, List.mem_cons, List.not_mem_nil, or_false] at hb2
    rcases hb2 with rfl | rfl | rfl | rfl <;>
      exact Nat.mod_lt _ (by norm_num)

theorem layer1_length_ge (raw : List Nat) : 71 ≤ (layer1 raw).length := by
  rw [layer1_eq]
  simp only [List.length_append, paddedPayload_length]
  simp [PREAMBLE_SFD, le32]
  omega

/-- Whole-system round trip: for any bus width and layout, transmitting a
raw frame of in-range bytes and monitoring the packed bus words delivers
exactly one frame — the zero-padded payload. -/
theorem pipeline_eq_padded (il : Bool) (N : Nat) (raw : List Nat)
    (hN : 0 < N) (hNle : N ≤ 8) (hb : ∀ b ∈ raw, b < 256) :
    pipeline il N raw = some [paddedPayload raw] := by
  have hwb := layer1_bytes_lt raw hb
  have hwlen : N - 1 ≤ (layer1 raw).length := by
    have := layer1_length_ge raw
    omega
  have hwf := txWords_wf N (layer1 raw) hN hwlen hwb
  obtain ⟨vs, hvs, hmap⟩ :=
    signalWords_roundtrip il N (txWords N (layer1 raw)) hwf
  rw [pipeline, hvs, Option.map_some', hmap, monitorRun_txWords N _ hN,
    processPkt_layer1 raw]
  rfl

/-- **C1** (counterexample to the claim as stated): transmitting the
1-byte frame `[0xAA]` on the 4-lane interleaved bus and receiving it does
*not* return the original raw frame — the delivered frame carries the
zero padding added by `layer1`. -/
theorem roundtrip_not_exact : pipeline true 4 [0xAA] ≠ some [[0xAA]] := by
  rw [pipeline_eq_padded true 4 [0xAA] (by norm_num) (by norm_num)
    (by intro b hbm; simp at hbm; omega)]
  decide

/-- **C1** (amended): for every raw frame of length 1..1500 with byte
values below 256, every width in {4, 8} and either lane layout,
transmitting with the driver and receiving with the monitor yields back
exactly one frame, namely the raw frame right-padded with zero bytes to
the 60-byte minimum; it equals the original frame exactly when the raw
frame is already at least 60 bytes long. -/
theorem roundtrip_padded (raw : List Nat) (N : Nat) (il : Bool)
    (hN : N = 4 ∨ N = 8) (h1 : 1 ≤ raw.length) (h2 : raw.length ≤ 1500)
    (hb : ∀ b ∈ raw, b < 256) :
    pipeline il N raw = some [paddedPayload raw] ∧
    (60 ≤ raw.length → pipeline il N raw = some [raw]) := by
  have hmain := pipeline_eq_padded il N raw (by omega) (by omega) hb
  refine ⟨hmain, fun h60 => ?_⟩
  rw [hmain, paddedPayload_of_ge raw h60]

/-- Witness for the amended C1 at the 1-byte frame on the 4-lane
interleaved bus. -/
theorem roundtrip_padded_witness :
    pipeline true 4 [0xAA] = some [paddedPayload [0xAA]] ∧
    (60 ≤ ([0xAA] : List Nat).length → pipeline true 4 [0xAA] = some [[0xAA]]) :=
  roundtrip_padded [0xAA] 4 true (by norm_num) (by decide) (by decide)
    (by intro b hbm; simp at hbm; omega)

end Xgmii
